import Mathlib

/-!
Verification of the antelope Asset / Symbol / SymbolCode core.

JS strings are modelled as lists of UTF-16 code units (`List Nat`), the
64-bit integer wrappers as `Nat` (UInt64, always `< 2 ^ 64` in reachable
states) and `Int` (Int64), and the IEEE-double arithmetic of
`convertFloat` as exact rational arithmetic (`ℚ`), which agrees with the
double computation at every input where that computation is exact.
Relevant character codes: 32 space, 44 comma, 45 minus, 46 dot,
48..57 digits, 65..90 uppercase letters.
-/

namespace Antelope

/-- Fixed-width little-endian byte expansion (k bytes), as produced by
BN#toArray with an explicit length argument. -/
def leBytesPad : Nat → Nat → List Nat
  | 0, _ => []
  | k + 1, n => n % 256 :: leBytesPad k (n / 256)

/-- Trailing zeros removed from a byte list (the high-order end of a
little-endian representation). -/
def stripTrailZeros : List Nat → List Nat
  | [] => []
  | c :: t =>
    match stripTrailZeros t with
    | [] => if c = 0 then [] else [c]
    | r => c :: r

/-- Minimal little-endian byte expansion, as produced by BN#toArray in
little-endian order without a length argument, for 64-bit values (all
reachable values are below 2 ^ 64, so eight bytes suffice). -/
def leBytes (n : Nat) : List Nat := stripTrailZeros (leBytesPad 8 n)

/-- Value of a little-endian byte list, as read by BN's array constructor
with the little-endian flag. -/
def leVal (l : List Nat) : Nat := l.foldr (fun c acc => c + 256 * acc) 0

/-- BN#toArray in big-endian order without a length argument: minimal
big-endian bytes, with the single byte 0 for the value zero. -/
def toArrayBE (n : Nat) : List Nat := if n = 0 then [0] else (leBytes n).reverse

/-- Decimal digit characters of n, least-significant first; the first
argument is fuel (20 digits cover every 64-bit value). -/
def natDigitsRevF : Nat → Nat → List Nat
  | 0, n => [n % 10 + 48]
  | f + 1, n => if n < 10 then [n + 48] else (n % 10 + 48) :: natDigitsRevF f (n / 10)

/-- Decimal digit characters of n, least-significant first. -/
def natDigitsRev (n : Nat) : List Nat := natDigitsRevF 20 n

/-- Decimal rendering of n, most-significant digit first. -/
def natToDigitChars (n : Nat) : List Nat := (natDigitsRev n).reverse

/-- Value of a string of decimal digit characters. -/
def digitsToNat (l : List Nat) : Nat := l.foldl (fun acc c => acc * 10 + (c - 48)) 0

/-- Character codes of the decimal digits 0..9. -/
def isDigitChar (c : Nat) : Bool := decide (48 ≤ c ∧ c ≤ 57)

/-- JS String#split with a one-character separator string. -/
def splitOn (sep : Nat) : List Nat → List (List Nat)
  | [] => [[]]
  | c :: t =>
    match splitOn sep t with
    | [] => [[]]
    | h :: r => if c = sep then [] :: h :: r else (c :: h) :: r

/-- JS String#replace with a one-character string pattern: replaces only
the first occurrence. -/
def replaceFirst (pat : Nat) : List Nat → List Nat
  | [] => []
  | c :: t => if c = pat then t else c :: replaceFirst pat t

/-- Source charsToSymbolName: maps byte values to characters and reverses;
on the code-unit representation the character map is the identity, so
this is List.reverse. -/
def charsToSymbolName (chars : List Nat) : List Nat := chars.reverse

/-- Source toRawSymbolCode: char codes of the first min(length, 7)
characters of the name. -/
def toRawSymbolCode (name : List Nat) : List Nat := name.take 7

/-- Source toRawSymbol: the precision byte followed by the ticker bytes,
read as a little-endian integer. -/
def toRawSymbol (name : List Nat) (precision : Nat) : Nat :=
  leVal (precision :: toRawSymbolCode name)

/-- Source toSymbolPrecision: low byte (bitwise and with 0xff) of the
packed value. -/
def toSymbolPrecision (v : Nat) : Nat := v % 256

/-- Source toSymbolName: big-endian byte array with the last (lowest-order,
precision) byte dropped, mapped to characters and reversed. -/
def toSymbolName (v : Nat) : List Nat := charsToSymbolName (toArrayBE v).dropLast

/-- The regex Symbol.symbolNamePattern on code-unit lists: one to seven
uppercase letters A to Z and nothing else. -/
def symbolNamePattern (cs : List Nat) : Bool :=
  decide (1 ≤ cs.length ∧ cs.length ≤ 7) && cs.all fun c => decide (65 ≤ c ∧ c ≤ 90)

/-- Error values thrown by the module (plus badNumber for failures that the
external integer layer raises on malformed numeric text). -/
inductive Err where
  | invalidAssetString
  | invalidSymbolString
  | symbolPrecision
  | symbolCharset
  | precisionLoss
  | badNumber
deriving DecidableEq

/-- The Symbol constructor: rejects a low byte above Symbol.maxPrecision
(18), then rejects an extracted name that does not match
Symbol.symbolNamePattern; otherwise stores the packed value. -/
def mkSymbol (v : Nat) : Except Err Nat :=
  if 18 < toSymbolPrecision v then .error .symbolPrecision
  else if symbolNamePattern (toSymbolName v) then .ok v
  else .error .symbolCharset

/-- Symbol.fromParts: new Symbol(toRawSymbol(name, precision)). -/
def Symbol.fromParts (name : List Nat) (precision : Nat) : Except Err Nat :=
  mkSymbol (toRawSymbol name precision)

/-- Symbol.from on a UInt64 input: new Symbol(value). -/
def Symbol.fromU64 (v : Nat) : Except Err Nat := mkSymbol v

/-- Modelled from the spec: UInt64.fromABI (the external integer / codec
layer is not under src) reads one unsigned 64-bit integer as eight
little-endian bytes. -/
def uint64FromABI (bytes : List Nat) : Nat := leVal (bytes.take 8)

/-- Modelled from the spec: UInt64.toABI writes the value as eight
little-endian bytes. -/
def uint64ToABI (v : Nat) : List Nat := leBytesPad 8 v

/-- Symbol.fromABI: new Symbol(UInt64.fromABI(decoder)). -/
def Symbol.fromABI (bytes : List Nat) : Except Err Nat := mkSymbol (uint64FromABI bytes)

/-- Symbol#toABI: writes the raw packed value. -/
def Symbol.toABI (v : Nat) : List Nat := uint64ToABI v

/-- Modelled from the spec / the JS builtin: Number.parseInt on the
precision field (optional sign, then the longest digit prefix; none when
no digit is present, where the JS original yields NaN; no claim reaches
that state). -/
def parseIntJS (cs : List Nat) : Option Int :=
  if cs.head? = some 45 then
    (if (cs.drop 1).takeWhile isDigitChar = [] then none
     else some (-(digitsToNat ((cs.drop 1).takeWhile isDigitChar) : Int)))
  else
    (if cs.takeWhile isDigitChar = [] then none
     else some ((digitsToNat (cs.takeWhile isDigitChar) : Int)))

/-- Symbol.from on a string: split on commas, require exactly two parts,
parse the left part as the precision and build from parts. A NaN or
negative parsed precision is routed to badNumber (in the JS original that
value flows into BN and fails there; no claim reaches this). -/
def Symbol.fromString (cs : List Nat) : Except Err Nat :=
  match splitOn 44 cs with
  | [a, b] =>
    match parseIntJS a with
    | some p => if p < 0 then .error .badNumber else Symbol.fromParts b p.toNat
    | none => .error .badNumber
  | _ => .error .invalidSymbolString

/-- Symbol#toString: "precision,name". -/
def symToString (v : Nat) : List Nat :=
  natToDigitChars (toSymbolPrecision v) ++ 44 :: toSymbolName v

/-- BN#clone. -/
def bnClone (n : Nat) : Nat := n

/-- BN#iushrn: in-place right shift by k bits; in the embedding the
mutation target is the value the caller passes (here always the clone). -/
def bnIushrn (n k : Nat) : Nat := n / 2 ^ k

/-- The Symbol#code getter: shifts a clone of the stored value right by
8 bits. First component: the resulting SymbolCode value; second
component: the stored Symbol value after the getter runs, which is
unchanged because only the clone is shifted. -/
def symbolCode (v : Nat) : Nat × Nat := (bnIushrn (bnClone v) 8, v)

/-- SymbolCode.from on a string: UInt64.from(new BN(toRawSymbolCode(value),
'le')). No validation is performed at this layer. -/
def scFromString (cs : List Nat) : Nat := leVal (toRawSymbolCode cs)

/-- SymbolCode#toString: charsToSymbolName(value.toArray('be')). -/
def scToString (v : Nat) : List Nat := charsToSymbolName (toArrayBE v)

/-- Symbol#convertFloat with the double arithmetic modelled exactly over
ℚ (the literal 0x20000000000000 is 2 ^ 53). The source compares the
signed product, not its magnitude. The final Int64.from(rv) is the ok
payload here; its rounding belongs to the external integer layer. -/
def convertFloatQ (precision : Nat) (f : ℚ) : Except Err ℚ :=
  if (2 : ℚ) ^ 53 ≤ (10 : ℚ) ^ precision * f then .error .precisionLoss
  else .ok ((10 : ℚ) ^ precision * f)

/-- An Asset: signed 64-bit units plus the packed symbol value. -/
structure Asset where
  units : Int
  symVal : Nat
deriving DecidableEq

/-- Modelled from the spec: Int64#toString, the exact decimal rendering of
the signed 64-bit value (external integer layer). -/
def intToCharList (i : Int) : List Nat :=
  if i < 0 then 45 :: natToDigitChars i.natAbs else natToDigitChars i.toNat

/-- Modelled from the spec: Int64.from on a decimal string — an optional
leading minus sign followed by decimal digits, parsed exactly; none on
malformed digit text (the external integer layer fails there). -/
def int64FromChars (cs : List Nat) : Option Int :=
  if cs.head? = some 45 then
    (if cs.drop 1 ≠ [] ∧ (cs.drop 1).all isDigitChar then
      some (-(digitsToNat (cs.drop 1) : Int))
     else none)
  else
    (if cs ≠ [] ∧ cs.all isDigitChar then some ((digitsToNat cs : Int)) else none)

/-- The unshift-while loop of Asset#toString: left-pad with the digit 0
until the length exceeds the precision. -/
def padZeros (p : Nat) (l : List Nat) : List Nat :=
  List.replicate (p + 1 - l.length) 48 ++ l

/-- Array#splice(i, 0, c): insert one element at index i. -/
def insertAt (l : List Nat) (i : Nat) (c : Nat) : List Nat :=
  l.take i ++ c :: l.drop i

/-- Asset#toString: render the units, detach a leading minus sign, pad,
splice in the decimal point when the precision is positive, reattach the
sign and append a space and the symbol name. -/
def Asset.toString (a : Asset) : List Nat :=
  let digits0 := intToCharList a.units
  let p := toSymbolPrecision a.symVal
  let digits1 := if digits0.head? = some 45 then digits0.drop 1 else digits0
  let digits2 := padZeros p digits1
  let digits3 := if 0 < p then insertAt digits2 (digits2.length - p) 46 else digits2
  (if digits0.head? = some 45 then 45 :: digits3 else digits3) ++ 32 :: toSymbolName a.symVal

/-- Asset.from on a string: split on spaces, require exactly two parts,
strip the first dot from the amount, infer the precision as the length of
the text between the first and second dot, build the symbol from parts
and parse the remaining digits as the units. -/
def Asset.fromString (cs : List Nat) : Except Err Asset :=
  match splitOn 32 cs with
  | [p0, p1] =>
    match Symbol.fromParts p1 (((splitOn 46 p0).get? 1).getD []).length with
    | .error e => .error e
    | .ok s =>
      match int64FromChars (replaceFirst 46 p0) with
      | some u => .ok ⟨u, s⟩
      | none => .error .badNumber
  | _ => .error .invalidAssetString

/-- Asset.from on an existing Asset: returned unchanged. -/
def Asset.fromA (a : Asset) : Asset := a

/-- Asset#equals against an Asset operand (Asset.from leaves it
unchanged): symbol raw values equal and units equal. -/
def Asset.equalsA (a b : Asset) : Bool :=
  a.symVal == b.symVal && a.units == b.units

/-- Asset#equals against a string operand: coerce through Asset.from,
then compare. -/
def Asset.equalsStr (a : Asset) (s : List Nat) : Except Err Bool :=
  (Asset.fromString s).map fun b => Asset.equalsA a b

/-- Spec-side restatement of the rendering algorithm, written from the
spec's words for the refinement comparison of claim C6: detach the sign,
left-pad the magnitude's digits to at least precision + 1 characters,
insert the decimal point precision digits from the right (no point at
precision 0), reattach the sign and append a space and the ticker name. -/
def assetToStringSpec (u : Int) (v : Nat) : List Nat :=
  let p := toSymbolPrecision v
  let mag := List.replicate (p + 1 - (natToDigitChars u.natAbs).length) 48 ++
    natToDigitChars u.natAbs
  (if u < 0 then [45] else []) ++
    (if p = 0 then mag else mag.take (mag.length - p) ++ 46 :: mag.drop (mag.length - p)) ++
    32 :: toSymbolName v


/-! ## Byte-level lemmas -/

lemma leVal_nil : leVal [] = 0 := rfl

lemma leVal_cons (c : Nat) (l : List Nat) : leVal (c :: l) = c + 256 * leVal l := rfl

lemma leVal_lt (l : List Nat) (h : ∀ c ∈ l, c < 256) : leVal l < 256 ^ l.length := by
  induction l with
  | nil => simp [leVal_nil]
  | cons c t ih =>
    have hc : c < 256 := h c (by simp)
    have ht : leVal t < 256 ^ t.length := ih fun x hx => h x (by simp [hx])
    rw [leVal_cons, List.length_cons, pow_succ]
    calc c + 256 * leVal t < 256 * (leVal t + 1) := by omega
    _ ≤ 256 * 256 ^ t.length := Nat.mul_le_mul_left _ ht
    _ = 256 ^ t.length * 256 := Nat.mul_comm _ _

lemma leBytesPad_zero (k : Nat) : leBytesPad k 0 = List.replicate k 0 := by
  induction k with
  | zero => rfl
  | succ k ih => simp [leBytesPad, ih, List.replicate_succ]

lemma leBytesPad_length (k n : Nat) : (leBytesPad k n).length = k := by
  induction k generalizing n with
  | zero => rfl
  | succ k ih => simp [leBytesPad, ih]

lemma leBytesPad_mem_lt (k n : Nat) : ∀ c ∈ leBytesPad k n, c < 256 := by
  induction k generalizing n with
  | zero => simp [leBytesPad]
  | succ k ih =>
    intro c hc
    rw [leBytesPad, List.mem_cons] at hc
    rcases hc with rfl | hc
    · omega
    · exact ih _ c hc

lemma leVal_leBytesPad (k n : Nat) : leVal (leBytesPad k n) = n % 256 ^ k := by
  induction k generalizing n with
  | zero => simp [leBytesPad, leVal_nil, Nat.mod_one]
  | succ k ih =>
    rw [leBytesPad, leVal_cons, ih, pow_succ', Nat.mod_mul]

lemma leBytesPad_of_lt (k j n : Nat) (h : n < 256 ^ k) :
    leBytesPad (k + j) n = leBytesPad k n ++ List.replicate j 0 := by
  induction k generalizing n with
  | zero =>
    have hn : n = 0 := by simpa using h
    subst hn
    simp [leBytesPad, leBytesPad_zero]
  | succ k ih =>
    have hdiv : n / 256 < 256 ^ k := by
      rw [Nat.div_lt_iff_lt_mul (by norm_num)]
      calc n < 256 ^ (k + 1) := h
      _ = 256 ^ k * 256 := pow_succ 256 k
    show leBytesPad (k + 1 + j) n = _
    have harr : k + 1 + j = (k + j) + 1 := by omega
    rw [harr]
    show (n % 256) :: leBytesPad (k + j) (n / 256) = _
    rw [ih _ hdiv]
    rfl

/-! ## stripTrailZeros lemmas -/

lemma stripTrailZeros_nil_iff (l : List Nat) :
    stripTrailZeros l = [] ↔ ∀ c ∈ l, c = 0 := by
  induction l with
  | nil => simp [stripTrailZeros]
  | cons c t ih =>
    cases h : stripTrailZeros t with
    | nil =>
      have ht : ∀ x ∈ t, x = 0 := ih.mp h
      by_cases hc : c = 0
      · subst hc
        simp only [stripTrailZeros, h, if_pos rfl]
        simp only [List.mem_cons, true_iff]
        constructor
        · intro _ x hx
          rcases hx with rfl | hx
          · rfl
          · exact ht x hx
        · intro _
          rfl
      · simp only [stripTrailZeros, h, if_neg hc]
        constructor
        · intro hfalse; exact absurd hfalse (by simp)
        · intro hall; exact absurd (hall c (by simp)) hc
    | cons r rs =>
      simp only [stripTrailZeros, h]
      constructor
      · intro hfalse; exact absurd hfalse (by simp)
      · intro hall
        have : stripTrailZeros t = [] := ih.mpr fun x hx => hall x (by simp [hx])
        rw [h] at this
        exact absurd this (by simp)

lemma stripTrailZeros_append_replicate (l : List Nat) (k : Nat) :
    stripTrailZeros (l ++ List.replicate k 0) = stripTrailZeros l := by
  induction l with
  | nil =>
    rw [List.nil_append]
    have h1 : stripTrailZeros (List.replicate k 0) = [] := by
      rw [stripTrailZeros_nil_iff]
      intro c hc
      exact List.eq_of_mem_replicate hc
    rw [h1]
    rfl
  | cons c t ih => simp only [List.cons_append, stripTrailZeros, List.append_eq, ih]

lemma stripTrailZeros_cons_of (c : Nat) (l : List Nat)
    (h : stripTrailZeros l = [] → c ≠ 0) :
    stripTrailZeros (c :: l) = c :: stripTrailZeros l := by
  cases hl : stripTrailZeros l with
  | nil => simp [stripTrailZeros, hl, h hl]
  | cons r rs => simp only [stripTrailZeros, hl]

lemma stripTrailZeros_of_ne_zero (l : List Nat) (h : ∀ c ∈ l, c ≠ 0) :
    stripTrailZeros l = l := by
  induction l with
  | nil => rfl
  | cons c t ih =>
    have ht : stripTrailZeros t = t := ih fun x hx => h x (by simp [hx])
    have hc : c ≠ 0 := h c (by simp)
    rw [stripTrailZeros_cons_of c t fun _ => hc, ht]

lemma stripTrailZeros_length_le (l : List Nat) :
    (stripTrailZeros l).length ≤ l.length := by
  induction l with
  | nil => simp [stripTrailZeros]
  | cons c t ih =>
    cases h : stripTrailZeros t with
    | nil =>
      by_cases hc : c = 0 <;> simp [stripTrailZeros, h, hc]
    | cons r rs =>
      simp only [stripTrailZeros, h, List.length_cons]
      rw [h] at ih
      simp only [List.length_cons] at ih
      omega

lemma stripTrailZeros_subset (l : List Nat) : ∀ c ∈ stripTrailZeros l, c ∈ l := by
  induction l with
  | nil => simp [stripTrailZeros]
  | cons c t ih =>
    intro x hx
    cases h : stripTrailZeros t with
    | nil =>
      rw [stripTrailZeros, h] at hx
      by_cases hc : c = 0
      · rw [if_pos hc] at hx; exact absurd hx (by simp)
      · rw [if_neg hc] at hx
        simp only [List.mem_singleton] at hx
        simp [hx]
    | cons r rs =>
      rw [stripTrailZeros, h] at hx
      rw [List.mem_cons] at hx
      rcases hx with rfl | hx
      · simp
      · right
        exact ih x (h ▸ hx)

lemma leVal_stripTrailZeros (l : List Nat) : leVal (stripTrailZeros l) = leVal l := by
  induction l with
  | nil => rfl
  | cons c t ih =>
    cases h : stripTrailZeros t with
    | nil =>
      have ht : leVal t = 0 := by rw [← ih, h, leVal_nil]
      by_cases hc : c = 0 <;>
        simp [stripTrailZeros, h, hc, leVal_cons, leVal_nil, ht]
    | cons r rs =>
      have hcons : stripTrailZeros (c :: t) = c :: stripTrailZeros t := by
        rw [stripTrailZeros, h]
      rw [hcons, leVal_cons, leVal_cons, ih]

/-! ## leBytes lemmas -/

lemma leBytes_zero : leBytes 0 = [] := by
  rw [leBytes, leBytesPad_zero, stripTrailZeros_nil_iff]
  intro c hc
  exact List.eq_of_mem_replicate hc

lemma leBytesPad_leVal (l : List Nat) (k : Nat) (hlt : ∀ c ∈ l, c < 256)
    (hlen : l.length ≤ k) :
    leBytesPad k (leVal l) = l ++ List.replicate (k - l.length) 0 := by
  induction l generalizing k with
  | nil => simp [leVal_nil, leBytesPad_zero]
  | cons c t ih =>
    cases k with
    | zero => simp at hlen
    | succ k =>
      have hc : c < 256 := hlt c (by simp)
      have hmod : (c + 256 * leVal t) % 256 = c := by
        rw [Nat.add_mul_mod_self_left, Nat.mod_eq_of_lt hc]
      have hdiv : (c + 256 * leVal t) / 256 = leVal t := by
        rw [Nat.add_mul_div_left _ _ (by norm_num : (0:Nat) < 256),
          Nat.div_eq_of_lt hc, Nat.zero_add]
      rw [leVal_cons, leBytesPad, hmod, hdiv,
        ih k (fun x hx => hlt x (by simp [hx])) (by simpa using hlen)]
      simp [List.length_cons, Nat.succ_sub_succ]

lemma leBytes_leVal (l : List Nat) (hlt : ∀ c ∈ l, c < 256) (hlen : l.length ≤ 8) :
    leBytes (leVal l) = stripTrailZeros l := by
  rw [leBytes, leBytesPad_leVal l 8 hlt hlen, stripTrailZeros_append_replicate]

lemma leVal_leBytes (n : Nat) (h : n < 2 ^ 64) : leVal (leBytes n) = n := by
  rw [leBytes, leVal_stripTrailZeros, leVal_leBytesPad]
  have h8 : (256 : Nat) ^ 8 = 2 ^ 64 := by norm_num
  rw [h8, Nat.mod_eq_of_lt h]

lemma leBytes_mem_lt (n : Nat) : ∀ c ∈ leBytes n, c < 256 := by
  intro c hc
  exact leBytesPad_mem_lt 8 n c (stripTrailZeros_subset _ c hc)

lemma leBytes_length_le_of_lt (k n : Nat) (hk : k ≤ 8) (h : n < 256 ^ k) :
    (leBytes n).length ≤ k := by
  have hsplit : leBytesPad 8 n = leBytesPad k n ++ List.replicate (8 - k) 0 := by
    have := leBytesPad_of_lt k (8 - k) n h
    rwa [Nat.add_sub_cancel' hk] at this
  rw [leBytes, hsplit, stripTrailZeros_append_replicate]
  calc (stripTrailZeros (leBytesPad k n)).length ≤ (leBytesPad k n).length :=
    stripTrailZeros_length_le _
  _ = k := leBytesPad_length k n

lemma leBytes_cons (n : Nat) (h0 : n ≠ 0) (h : n < 2 ^ 64) :
    leBytes n = n % 256 :: leBytes (n / 256) := by
  have hdiv : n / 256 < 256 ^ 7 := by
    rw [Nat.div_lt_iff_lt_mul (by norm_num)]
    calc n < 2 ^ 64 := h
    _ = 256 ^ 7 * 256 := by norm_num
  have h78 : leBytesPad 8 (n / 256) = leBytesPad 7 (n / 256) ++ List.replicate 1 0 :=
    leBytesPad_of_lt 7 1 (n / 256) hdiv
  have hL : leBytesPad 8 n = n % 256 :: leBytesPad 7 (n / 256) := rfl
  rw [leBytes, leBytes, hL, h78, stripTrailZeros_append_replicate]
  apply stripTrailZeros_cons_of
  intro hstrip hmod
  have hall : ∀ c ∈ leBytesPad 7 (n / 256), c = 0 := (stripTrailZeros_nil_iff _).mp hstrip
  have hv : leVal (leBytesPad 7 (n / 256)) = 0 := by
    have h1 : leVal (stripTrailZeros (leBytesPad 7 (n / 256))) = 0 := by
      rw [hstrip, leVal_nil]
    rwa [leVal_stripTrailZeros] at h1
  rw [leVal_leBytesPad, Nat.mod_eq_of_lt hdiv] at hv
  omega

lemma toSymbolName_eq (v : Nat) (h : v < 2 ^ 64) :
    toSymbolName v = leBytes (v / 256) := by
  by_cases h0 : v = 0
  · subst h0
    show charsToSymbolName (toArrayBE 0).dropLast = leBytes 0
    rw [toArrayBE, if_pos rfl, leBytes_zero]
    rfl
  · show charsToSymbolName (toArrayBE v).dropLast = leBytes (v / 256)
    rw [toArrayBE, if_neg h0, leBytes_cons v h0 h, List.reverse_cons,
      List.dropLast_concat]
    show ((leBytes (v / 256)).reverse).reverse = _
    rw [List.reverse_reverse]

/-! ## Decimal digit lemmas -/

lemma mem_natDigitsRevF (f n : Nat) : ∀ c ∈ natDigitsRevF f n, 48 ≤ c ∧ c ≤ 57 := by
  induction f generalizing n with
  | zero =>
    intro c hc
    simp only [natDigitsRevF, List.mem_singleton] at hc
    subst hc
    have := Nat.mod_lt n (by norm_num : (0:Nat) < 10)
    omega
  | succ f ih =>
    intro c hc
    by_cases h10 : n < 10
    · simp only [natDigitsRevF, if_pos h10, List.mem_singleton] at hc
      omega
    · simp only [natDigitsRevF, if_neg h10, List.mem_cons] at hc
      rcases hc with rfl | hc
      · have := Nat.mod_lt n (by norm_num : (0:Nat) < 10)
        omega
      · exact ih _ c hc

lemma natDigitsRevF_ne_nil (f n : Nat) : natDigitsRevF f n ≠ [] := by
  cases f with
  | zero => simp [natDigitsRevF]
  | succ f =>
    by_cases h10 : n < 10 <;> simp [natDigitsRevF, h10]

lemma foldr_natDigitsRevF (f n : Nat) (h : n < 10 ^ f) :
    (natDigitsRevF f n).foldr (fun c acc => acc * 10 + (c - 48)) 0 = n := by
  induction f generalizing n with
  | zero =>
    have hn : n = 0 := by simpa using h
    subst hn
    simp [natDigitsRevF]
  | succ f ih =>
    by_cases h10 : n < 10
    · simp only [natDigitsRevF, if_pos h10, List.foldr_cons, List.foldr_nil]
      omega
    · have h2 : n / 10 < 10 ^ f := by
        rw [Nat.div_lt_iff_lt_mul (by norm_num)]
        calc n < 10 ^ (f + 1) := h
        _ = 10 ^ f * 10 := pow_succ 10 f
      simp only [natDigitsRevF, if_neg h10, List.foldr_cons, ih _ h2]
      omega

lemma mem_natToDigitChars (n c : Nat) (hc : c ∈ natToDigitChars n) :
    48 ≤ c ∧ c ≤ 57 := by
  rw [natToDigitChars, List.mem_reverse] at hc
  exact mem_natDigitsRevF 20 n c hc

lemma natToDigitChars_ne_nil (n : Nat) : natToDigitChars n ≠ [] := by
  rw [natToDigitChars]
  intro h
  exact natDigitsRevF_ne_nil 20 n (by simpa using h)

lemma digitsToNat_natToDigitChars (n : Nat) (h : n < 10 ^ 20) :
    digitsToNat (natToDigitChars n) = n := by
  rw [digitsToNat, natToDigitChars, List.foldl_reverse]
  exact foldr_natDigitsRevF 20 n h

lemma foldl_digits_replicate_zero (k : Nat) :
    List.foldl (fun acc c => acc * 10 + (c - 48)) 0 (List.replicate k 48) = 0 := by
  induction k with
  | zero => rfl
  | succ k ih => simpa [List.replicate_succ] using ih

lemma digitsToNat_replicate_append (k : Nat) (l : List Nat) :
    digitsToNat (List.replicate k 48 ++ l) = digitsToNat l := by
  rw [digitsToNat, List.foldl_append, foldl_digits_replicate_zero]
  rfl

/-! ## splitOn and replaceFirst lemmas -/

lemma splitOn_ne_nil (sep : Nat) (l : List Nat) : splitOn sep l ≠ [] := by
  cases l with
  | nil => simp [splitOn]
  | cons c t =>
    cases h : splitOn sep t with
    | nil => simp [splitOn, h]
    | cons a r =>
      simp only [splitOn, h]
      split <;> simp

lemma splitOn_of_not_mem (sep : Nat) (l : List Nat) (h : sep ∉ l) :
    splitOn sep l = [l] := by
  induction l with
  | nil => rfl
  | cons c t ih =>
    have hc : ¬(c = sep) := fun e => h (by simp [e])
    have ht : sep ∉ t := fun hx => h (by simp [hx])
    simp [splitOn, ih ht, hc]

lemma splitOn_append (sep : Nat) (l1 l2 : List Nat) (h : sep ∉ l1) :
    splitOn sep (l1 ++ sep :: l2) = l1 :: splitOn sep l2 := by
  induction l1 with
  | nil =>
    cases h2 : splitOn sep l2 with
    | nil => exact absurd h2 (splitOn_ne_nil sep l2)
    | cons a r => simp [splitOn, h2]
  | cons c t ih =>
    have hc : ¬(c = sep) := fun e => h (by simp [e])
    have ht : sep ∉ t := fun hx => h (by simp [hx])
    cases h2 : splitOn sep (t ++ sep :: l2) with
    | nil => exact absurd h2 (splitOn_ne_nil sep _)
    | cons a r =>
      have hih := ih ht
      rw [h2] at hih
      injection hih with h3 h4
      subst h3
      subst h4
      simp only [List.cons_append, splitOn, List.append_eq, h2, hc, if_false]

lemma splitOn_pair (sep : Nat) (l1 l2 : List Nat) (h1 : sep ∉ l1) (h2 : sep ∉ l2) :
    splitOn sep (l1 ++ sep :: l2) = [l1, l2] := by
  rw [splitOn_append sep l1 l2 h1, splitOn_of_not_mem sep l2 h2]

lemma replaceFirst_of_not_mem (pat : Nat) (l : List Nat) (h : pat ∉ l) :
    replaceFirst pat l = l := by
  induction l with
  | nil => rfl
  | cons c t ih =>
    have hc : ¬(c = pat) := fun e => h (by simp [e])
    have ht : pat ∉ t := fun hx => h (by simp [hx])
    simp [replaceFirst, hc, ih ht]

lemma replaceFirst_append (pat : Nat) (l1 l2 : List Nat) (h : pat ∉ l1) :
    replaceFirst pat (l1 ++ pat :: l2) = l1 ++ l2 := by
  induction l1 with
  | nil => simp [replaceFirst]
  | cons c t ih =>
    have hc : ¬(c = pat) := fun e => h (by simp [e])
    have ht : pat ∉ t := fun hx => h (by simp [hx])
    simp [replaceFirst, hc, ih ht]

lemma replaceFirst_cons_ne (pat c : Nat) (l : List Nat) (h : ¬(c = pat)) :
    replaceFirst pat (c :: l) = c :: replaceFirst pat l := by
  simp [replaceFirst, h]

/-! ## Symbol validation lemmas -/

lemma symbolNamePattern_iff (cs : List Nat) :
    symbolNamePattern cs = true ↔
      1 ≤ cs.length ∧ cs.length ≤ 7 ∧ ∀ c ∈ cs, 65 ≤ c ∧ c ≤ 90 := by
  rw [symbolNamePattern]
  simp [List.all_eq_true, and_assoc]

lemma mkSymbol_ok_iff (v : Nat) :
    mkSymbol v = .ok v ↔
      toSymbolPrecision v ≤ 18 ∧ symbolNamePattern (toSymbolName v) = true := by
  constructor
  · intro h
    by_cases h1 : 18 < toSymbolPrecision v
    · rw [mkSymbol, if_pos h1] at h
      exact Except.noConfusion h
    · by_cases h2 : symbolNamePattern (toSymbolName v) = true
      · exact ⟨by omega, h2⟩
      · rw [mkSymbol, if_neg h1, if_neg h2] at h
        exact Except.noConfusion h
  · rintro ⟨h1, h2⟩
    rw [mkSymbol, if_neg (by omega), if_pos h2]

lemma mkSymbol_precision_iff (v : Nat) :
    mkSymbol v = .error .symbolPrecision ↔ 18 < toSymbolPrecision v := by
  constructor
  · intro h
    by_cases h1 : 18 < toSymbolPrecision v
    · exact h1
    · by_cases h2 : symbolNamePattern (toSymbolName v) = true
      · rw [mkSymbol, if_neg h1, if_pos h2] at h
        exact Except.noConfusion h
      · rw [mkSymbol, if_neg h1, if_neg h2] at h
        injection h with h3
        exact Err.noConfusion h3
  · intro h
    rw [mkSymbol, if_pos h]

lemma mkSymbol_charset_iff (v : Nat) :
    mkSymbol v = .error .symbolCharset ↔
      toSymbolPrecision v ≤ 18 ∧ symbolNamePattern (toSymbolName v) = false := by
  constructor
  · intro h
    by_cases h1 : 18 < toSymbolPrecision v
    · rw [mkSymbol, if_pos h1] at h
      injection h with h3
      exact Err.noConfusion h3
    · by_cases h2 : symbolNamePattern (toSymbolName v) = true
      · rw [mkSymbol, if_neg h1, if_pos h2] at h
        exact Except.noConfusion h
      · exact ⟨by omega, by simpa using h2⟩
  · rintro ⟨h1, h2⟩
    rw [mkSymbol, if_neg (by omega), if_neg (by simp [h2])]

lemma toRawSymbol_eq (cs : List Nat) (p : Nat) :
    toRawSymbol cs p = p + 256 * leVal (cs.take 7) := rfl

lemma toRawSymbol_lt (cs : List Nat) (p : Nat) (hp : p < 256)
    (hcs : ∀ c ∈ cs, c < 256) :
    toRawSymbol cs p < 2 ^ 64 := by
  have h1 : leVal (cs.take 7) < 256 ^ 7 := by
    have hlt : ∀ c ∈ cs.take 7, c < 256 := fun c hc => hcs c (List.mem_of_mem_take hc)
    have hlen : (cs.take 7).length ≤ 7 := by
      simp only [List.length_take]
      omega
    calc leVal (cs.take 7) < 256 ^ (cs.take 7).length := leVal_lt _ hlt
    _ ≤ 256 ^ 7 := Nat.pow_le_pow_right (by norm_num) hlen
  rw [toRawSymbol_eq]
  have h2 : (2 : Nat) ^ 64 = 256 * 256 ^ 7 := by norm_num
  rw [h2]
  calc p + 256 * leVal (cs.take 7) < 256 * (leVal (cs.take 7) + 1) := by omega
  _ ≤ 256 * 256 ^ 7 := Nat.mul_le_mul_left _ h1

lemma toRawSymbol_precision (cs : List Nat) (p : Nat) (hp : p < 256) :
    toSymbolPrecision (toRawSymbol cs p) = p := by
  rw [toSymbolPrecision, toRawSymbol_eq, Nat.add_mul_mod_self_left,
    Nat.mod_eq_of_lt hp]

lemma toRawSymbol_div (cs : List Nat) (p : Nat) (hp : p < 256) :
    toRawSymbol cs p / 256 = leVal (cs.take 7) := by
  rw [toRawSymbol_eq, Nat.add_mul_div_left _ _ (by norm_num : (0 : Nat) < 256),
    Nat.div_eq_of_lt hp, Nat.zero_add]

lemma toSymbolName_toRawSymbol (cs : List Nat) (p : Nat) (hp : p < 256)
    (hcs : ∀ c ∈ cs, c < 256) :
    toSymbolName (toRawSymbol cs p) = stripTrailZeros (cs.take 7) := by
  rw [toSymbolName_eq _ (toRawSymbol_lt cs p hp hcs), toRawSymbol_div cs p hp,
    leBytes_leVal]
  · exact fun c hc => hcs c (List.mem_of_mem_take hc)
  · simp only [List.length_take]
    omega

lemma fromParts_cases (cs : List Nat) (p : Nat) (hp : p ≤ 18)
    (hcs : ∀ c ∈ cs, c < 256) :
    (symbolNamePattern (stripTrailZeros (cs.take 7)) = true →
      Symbol.fromParts cs p = .ok (toRawSymbol cs p)) ∧
    (symbolNamePattern (stripTrailZeros (cs.take 7)) = false →
      Symbol.fromParts cs p = .error .symbolCharset) := by
  have hp' : p < 256 := by omega
  have hprec := toRawSymbol_precision cs p hp'
  have hname := toSymbolName_toRawSymbol cs p hp' hcs
  constructor
  · intro hpat
    rw [Symbol.fromParts, mkSymbol, hprec, if_neg (by omega), hname, if_pos hpat]
  · intro hpat
    rw [Symbol.fromParts, mkSymbol, hprec, if_neg (by omega), hname,
      if_neg (by simp [hpat])]

lemma fromParts_ok (cs : List Nat) (p : Nat) (hp : p ≤ 18)
    (hpat : symbolNamePattern cs = true) :
    Symbol.fromParts cs p = .ok (toRawSymbol cs p) ∧
    toSymbolPrecision (toRawSymbol cs p) = p ∧
    toSymbolName (toRawSymbol cs p) = cs := by
  obtain ⟨h1, h7, hall⟩ := (symbolNamePattern_iff cs).mp hpat
  have hcs : ∀ c ∈ cs, c < 256 := fun c hc => by have := hall c hc; omega
  have htake : cs.take 7 = cs := List.take_of_length_le h7
  have hstrip : stripTrailZeros cs = cs :=
    stripTrailZeros_of_ne_zero cs fun c hc => by have := hall c hc; omega
  have hname := toSymbolName_toRawSymbol cs p (by omega) hcs
  rw [htake, hstrip] at hname
  refine ⟨?_, toRawSymbol_precision cs p (by omega), hname⟩
  exact (fromParts_cases cs p hp hcs).1 (by rw [htake, hstrip]; exact hpat)

lemma valid_symbol_reconstruct (v : Nat) (hv : mkSymbol v = .ok v)
    (h64 : v < 2 ^ 64) :
    toRawSymbol (toSymbolName v) (toSymbolPrecision v) = v := by
  obtain ⟨hp, hpat⟩ := (mkSymbol_ok_iff v).mp hv
  have hname : toSymbolName v = leBytes (v / 256) := toSymbolName_eq v h64
  obtain ⟨h1, h7, hall⟩ := (symbolNamePattern_iff _).mp hpat
  have htake : (toSymbolName v).take 7 = toSymbolName v := List.take_of_length_le h7
  have hdivlt : v / 256 < 2 ^ 64 := lt_of_le_of_lt (Nat.div_le_self v 256) h64
  rw [toRawSymbol_eq, htake, hname, leVal_leBytes (v / 256) hdivlt]
  rw [toSymbolPrecision]
  exact Nat.mod_add_div v 256

/-! ## Numeric text lemmas -/

lemma takeWhile_eq_self (p : Nat → Bool) (l : List Nat) (h : ∀ c ∈ l, p c = true) :
    l.takeWhile p = l := by
  induction l with
  | nil => rfl
  | cons c t ih =>
    rw [List.takeWhile_cons, if_pos (h c (by simp)), ih fun x hx => h x (by simp [hx])]

lemma parseIntJS_digits (cs : List Nat) (hne : cs ≠ [])
    (hds : ∀ c ∈ cs, isDigitChar c = true) :
    parseIntJS cs = some ((digitsToNat cs : Int)) := by
  obtain ⟨c, t, rfl⟩ := List.exists_cons_of_ne_nil hne
  have hc : 48 ≤ c ∧ c ≤ 57 := by simpa [isDigitChar] using hds c (by simp)
  have hhead : ¬((c :: t).head? = some 45) := by
    simp only [List.head?_cons, Option.some.injEq]
    omega
  rw [parseIntJS, if_neg hhead, takeWhile_eq_self _ _ hds, if_neg (by simp)]

lemma int64FromChars_digits (cs : List Nat) (hne : cs ≠ [])
    (hds : ∀ c ∈ cs, isDigitChar c = true) :
    int64FromChars cs = some ((digitsToNat cs : Int)) := by
  obtain ⟨c, t, rfl⟩ := List.exists_cons_of_ne_nil hne
  have hc : 48 ≤ c ∧ c ≤ 57 := by simpa [isDigitChar] using hds c (by simp)
  have hhead : ¬((c :: t).head? = some 45) := by
    simp only [List.head?_cons, Option.some.injEq]
    omega
  rw [int64FromChars, if_neg hhead,
    if_pos ⟨by simp, by rw [List.all_eq_true]; exact hds⟩]

lemma int64FromChars_neg_digits (cs : List Nat) (hne : cs ≠ [])
    (hds : ∀ c ∈ cs, isDigitChar c = true) :
    int64FromChars (45 :: cs) = some (-(digitsToNat cs : Int)) := by
  have hdrop : (45 :: cs).drop 1 = cs := rfl
  rw [int64FromChars, if_pos (by simp), hdrop,
    if_pos ⟨hne, by rw [List.all_eq_true]; exact hds⟩]

/-! ## Reduction lemmas for the string constructors -/

lemma fromString_reduce (s x y : List Nat) (h : splitOn 32 s = [x, y]) :
    Asset.fromString s =
      match Symbol.fromParts y (((splitOn 46 x).get? 1).getD []).length with
      | .error e => .error e
      | .ok sv =>
        match int64FromChars (replaceFirst 46 x) with
        | some u => .ok ⟨u, sv⟩
        | none => .error .badNumber := by
  unfold Asset.fromString
  rw [h]

lemma fromString_not_two (s : List Nat) (h : (splitOn 32 s).length ≠ 2) :
    Asset.fromString s = .error .invalidAssetString := by
  rcases hs : splitOn 32 s with _ | ⟨x, _ | ⟨y, _ | ⟨z, r⟩⟩⟩
  · unfold Asset.fromString
    rw [hs]
  · unfold Asset.fromString
    rw [hs]
  · rw [hs] at h
    simp at h
  · unfold Asset.fromString
    rw [hs]

lemma symFromString_reduce (s a b : List Nat) (h : splitOn 44 s = [a, b]) :
    Symbol.fromString s =
      match parseIntJS a with
      | some p => if p < 0 then .error .badNumber else Symbol.fromParts b p.toNat
      | none => .error .badNumber := by
  unfold Symbol.fromString
  rw [h]

/-! ## Rendering lemmas -/

lemma padZeros_length_ge (p : Nat) (l : List Nat) : p + 1 ≤ (padZeros p l).length := by
  rw [padZeros, List.length_append, List.length_replicate]
  omega

lemma mem_padZeros (p : Nat) (l : List Nat) (c : Nat) (h : c ∈ padZeros p l) :
    c = 48 ∨ c ∈ l := by
  rw [padZeros, List.mem_append] at h
  rcases h with h | h
  · exact Or.inl (List.eq_of_mem_replicate h)
  · exact Or.inr h

lemma mem_padZeros_digits (p n c : Nat) (h : c ∈ padZeros p (natToDigitChars n)) :
    48 ≤ c ∧ c ≤ 57 := by
  rcases mem_padZeros p _ c h with rfl | h
  · omega
  · exact mem_natToDigitChars n c h

lemma digitsToNat_padZeros (p : Nat) (l : List Nat) :
    digitsToNat (padZeros p l) = digitsToNat l :=
  digitsToNat_replicate_append _ l

lemma padZeros_ne_nil (p : Nat) (l : List Nat) : padZeros p l ≠ [] := by
  intro h
  have := padZeros_length_ge p l
  rw [h] at this
  simp at this

lemma mem_insertAt (l : List Nat) (i x c : Nat) (h : c ∈ insertAt l i x) :
    c = x ∨ c ∈ l := by
  rw [insertAt, List.mem_append, List.mem_cons] at h
  rcases h with h | h | h
  · exact Or.inr (List.mem_of_mem_take h)
  · exact Or.inl h
  · exact Or.inr (List.mem_of_mem_drop h)

lemma head?_digits_ne_45 (n : Nat) : ¬((natToDigitChars n).head? = some 45) := by
  cases hh : natToDigitChars n with
  | nil => simp
  | cons c t =>
    have hc : 48 ≤ c ∧ c ≤ 57 := mem_natToDigitChars n c (by rw [hh]; simp)
    simp only [List.head?_cons, Option.some.injEq]
    omega

lemma toString_eq_spec (a : Asset) :
    Asset.toString a = assetToStringSpec a.units a.symVal := by
  rcases a with ⟨u, v⟩
  by_cases hu : u < 0
  · have h0 : intToCharList u = 45 :: natToDigitChars u.natAbs := by
      rw [intToCharList, if_pos hu]
    simp only [Asset.toString, assetToStringSpec, h0, List.head?_cons,
      Option.some.injEq, padZeros]
    by_cases hp : toSymbolPrecision v = 0
    · simp [hp, hu]
    · have hp' : 0 < toSymbolPrecision v := Nat.pos_of_ne_zero hp
      simp [hp, hp', hu, insertAt]
  · have h0 : intToCharList u = natToDigitChars u.natAbs := by
      rw [intToCharList, if_neg hu]
      congr 1
      omega
    have hh := head?_digits_ne_45 u.natAbs
    simp only [Asset.toString, assetToStringSpec, h0, padZeros]
    by_cases hp : toSymbolPrecision v = 0
    · simp [hp, hu, hh]
    · have hp' : 0 < toSymbolPrecision v := Nat.pos_of_ne_zero hp
      simp [hp, hp', hu, hh, insertAt]

/-! ## Claim theorems -/

/-- Claim C1 (code bug): convertFloat's guard compares the signed scaled
value against 2 ^ 53, not its magnitude. At precision 0 and input
-(2 ^ 54) the scaled magnitude reaches 2 ^ 54 ≥ 2 ^ 53, yet no
precision-loss error is raised and the conversion returns the value; a
positive input of the same magnitude is rejected, and the method's own
documentation promises a failure whenever the result does not fit in 53
bits. -/
theorem convertFloat_guard_is_signed :
    convertFloatQ 0 (-(2 ^ 54 : ℚ)) = .ok (-(2 ^ 54 : ℚ)) ∧
    (2 : ℚ) ^ 53 ≤ |(10 : ℚ) ^ (0 : ℕ) * (-(2 ^ 54 : ℚ))| ∧
    convertFloatQ 0 ((2 : ℚ) ^ 54) = .error .precisionLoss := by
  refine ⟨?_, ?_, ?_⟩
  · rw [convertFloatQ, if_neg (by norm_num)]
    norm_num
  · rw [pow_zero, one_mul, abs_neg, abs_of_nonneg (by positivity)]
    norm_num
  · rw [convertFloatQ, if_pos (by norm_num)]

/-- Claim C10: the Symbol#code getter returns the packed value shifted
right by 8 bits, computed on a clone, so the stored value is unchanged
and repeated reads of code, precision and name agree; and
Symbol.fromParts("EOS", 4).code.toString() is "EOS". -/
theorem symbol_code_frame (v : Nat) :
    (symbolCode v).1 = v / 2 ^ 8 ∧
    (symbolCode v).2 = v ∧
    symbolCode ((symbolCode v).2) = symbolCode v ∧
    toSymbolPrecision ((symbolCode v).2) = toSymbolPrecision v ∧
    toSymbolName ((symbolCode v).2) = toSymbolName v ∧
    scToString ((symbolCode (toRawSymbol [69, 79, 83] 4)).1) = [69, 79, 83] :=
  ⟨rfl, rfl, rfl, rfl, rfl, rfl⟩

/-- Claim C8: Asset#equals coerces the operand through Asset.from (an
Asset operand is returned unchanged) and is true exactly when both the
symbol packed values and the units agree; "1.0 EOS" and "1.00 EOS" parse
to assets with equal numeric value but different precision and are not
equal. -/
theorem asset_equals_spec (a b : Asset) (s : List Nat) :
    (Asset.equalsA a b = true ↔ a.symVal = b.symVal ∧ a.units = b.units) ∧
    Asset.fromA a = a ∧
    Asset.equalsStr a s = (Asset.fromString s).map (Asset.equalsA a) ∧
    Asset.fromString [49, 46, 48, 32, 69, 79, 83] =
      .ok ⟨10, toRawSymbol [69, 79, 83] 1⟩ ∧
    Asset.fromString [49, 46, 48, 48, 32, 69, 79, 83] =
      .ok ⟨100, toRawSymbol [69, 79, 83] 2⟩ ∧
    Asset.equalsA ⟨10, toRawSymbol [69, 79, 83] 1⟩
      ⟨100, toRawSymbol [69, 79, 83] 2⟩ = false := by
  refine ⟨?_, rfl, rfl, rfl, rfl, rfl⟩
  rw [Asset.equalsA, Bool.and_eq_true, beq_iff_eq, beq_iff_eq]

/-- Claim C2 counterexample: Symbol.fromParts("ABCDEFGH", 4) does not
fail; the name is silently truncated to its first seven characters
"ABCDEFG" before validation, and a name whose second character is the
NUL code unit also succeeds with the trailing NUL dropped. -/
theorem fromParts_truncation_counterexample :
    Symbol.fromParts [65, 66, 67, 68, 69, 70, 71, 72] 4 =
      .ok (toRawSymbol [65, 66, 67, 68, 69, 70, 71, 72] 4) ∧
    toSymbolName (toRawSymbol [65, 66, 67, 68, 69, 70, 71, 72] 4) =
      [65, 66, 67, 68, 69, 70, 71] ∧
    Symbol.fromParts [65, 0] 4 = .ok (toRawSymbol [65, 0] 4) ∧
    toSymbolName (toRawSymbol [65, 0] 4) = [65] :=
  ⟨rfl, rfl, rfl, rfl⟩

/-- Claim C2 amended: for precision at most 18, Symbol construction from
parts fails with the charset error exactly when the first min(7, length)
characters of the name, after dropping trailing NUL code units, do not
match the one-to-seven-uppercase-letters pattern; names longer than
seven characters are silently truncated to seven rather than rejected
(so fromParts("ABCDEFGH", p) succeeds with name "ABCDEFG"), and a name
passing the truncated-and-stripped pattern check constructs
successfully. -/
theorem fromParts_charset_amended (cs cs2 : List Nat) (p p2 : Nat)
    (hp : p ≤ 18) (hcs : ∀ c ∈ cs, c < 256)
    (hp2 : p2 ≤ 18) (hcs2 : ∀ c ∈ cs2, c < 256)
    (hpat2 : symbolNamePattern (stripTrailZeros (cs2.take 7)) = true) :
    (Symbol.fromParts cs p = .error .symbolCharset ↔
      symbolNamePattern (stripTrailZeros (cs.take 7)) = false) ∧
    Symbol.fromParts cs2 p2 = .ok (toRawSymbol cs2 p2) ∧
    Symbol.fromParts [65, 66, 67, 68, 69, 70, 71, 72] 4 =
      .ok (toRawSymbol [65, 66, 67, 68, 69, 70, 71, 72] 4) ∧
    toSymbolName (toRawSymbol [65, 66, 67, 68, 69, 70, 71, 72] 4) =
      [65, 66, 67, 68, 69, 70, 71] := by
  obtain ⟨hok, herr⟩ := fromParts_cases cs p hp hcs
  refine ⟨⟨?_, herr⟩, (fromParts_cases cs2 p2 hp2 hcs2).1 hpat2, rfl, rfl⟩
  intro h
  by_cases hb : symbolNamePattern (stripTrailZeros (cs.take 7)) = true
  · rw [hok hb] at h
    exact Except.noConfusion h
  · simpa using hb

/-- Witness for the amended C2 theorem at concrete inputs: name "BA" with
precision 4, and the valid name "EOS" with precision 4. -/
theorem fromParts_charset_amended_witness :
    (4 : Nat) ≤ 18 ∧ (∀ c ∈ [66, 97], c < 256) ∧
    (4 : Nat) ≤ 18 ∧ (∀ c ∈ [69, 79, 83], c < 256) ∧
    symbolNamePattern (stripTrailZeros ([69, 79, 83].take 7)) = true ∧
    ((Symbol.fromParts [66, 97] 4 = .error .symbolCharset ↔
      symbolNamePattern (stripTrailZeros ([66, 97].take 7)) = false) ∧
    Symbol.fromParts [69, 79, 83] 4 = .ok (toRawSymbol [69, 79, 83] 4) ∧
    Symbol.fromParts [65, 66, 67, 68, 69, 70, 71, 72] 4 =
      .ok (toRawSymbol [65, 66, 67, 68, 69, 70, 71, 72] 4) ∧
    toSymbolName (toRawSymbol [65, 66, 67, 68, 69, 70, 71, 72] 4) =
      [65, 66, 67, 68, 69, 70, 71]) :=
  ⟨by decide, by decide, by decide, by decide, by decide,
    fromParts_charset_amended [66, 97] [69, 79, 83] 4 4 (by decide) (by decide)
      (by decide) (by decide) (by decide)⟩

/-- Claim C9 counterexample: SymbolCode#toString maps every byte of the
minimal big-endian representation to a character, zero bytes included:
the all-zero value renders as a single NUL character, not as the empty
string, and an interior zero byte renders as an interior NUL
character. -/
theorem scToString_zero_counterexample :
    scToString 0 = [0] ∧
    ¬(scToString 0 = []) ∧
    scToString (65 + 66 * 2 ^ 16) = [65, 0, 66] ∧
    ¬(scToString (65 + 66 * 2 ^ 16) = [65, 66]) :=
  ⟨rfl, by decide, rfl, by decide⟩

/-- Claim C9 amended: SymbolCode#toString unpacks the integer to its
minimal big-endian byte representation (the single byte 0 for the
all-zero value), maps every byte of that representation — including any
zero byte — to a character and reverses; high-order zero bytes of a
short ticker are absent from the minimal representation, so a packed
ticker whose bytes are all nonzero round-trips to the original
left-to-right text. -/
theorem scToString_amended (cs : List Nat) (w : Nat)
    (h1 : cs ≠ []) (h2 : cs.length ≤ 7) (h3 : ∀ c ∈ cs, 0 < c ∧ c < 256)
    (hw0 : w ≠ 0) :
    scToString (scFromString cs) = cs ∧
    scToString w = leBytes w ∧
    scToString 0 = [0] := by
  refine ⟨?_, ?_, rfl⟩
  · have htake : cs.take 7 = cs := List.take_of_length_le h2
    have hval : scFromString cs = leVal cs := by
      rw [scFromString, toRawSymbolCode, htake]
    have hne : ¬(leVal cs = 0) := by
      obtain ⟨c, t, rfl⟩ := List.exists_cons_of_ne_nil h1
      have := (h3 c (by simp)).1
      rw [leVal_cons]
      omega
    rw [hval, scToString, toArrayBE, if_neg hne, charsToSymbolName,
      List.reverse_reverse,
      leBytes_leVal cs (fun c hc => (h3 c hc).2) (by omega)]
    exact stripTrailZeros_of_ne_zero cs fun c hc => by have := (h3 c hc).1; omega
  · rw [scToString, toArrayBE, if_neg hw0, charsToSymbolName, List.reverse_reverse]

/-- Witness for the amended C9 theorem: the ticker "EOS" and the nonzero
packed value 65. -/
theorem scToString_amended_witness :
    [69, 79, 83] ≠ ([] : List Nat) ∧ ([69, 79, 83] : List Nat).length ≤ 7 ∧
    (∀ c ∈ [69, 79, 83], 0 < c ∧ c < 256) ∧ (65 : Nat) ≠ 0 ∧
    (scToString (scFromString [69, 79, 83]) = [69, 79, 83] ∧
      scToString 65 = leBytes 65 ∧
      scToString 0 = [0]) :=
  ⟨by decide, by decide, by decide, by decide,
    scToString_amended [69, 79, 83] 65 (by decide) (by decide) (by decide)
      (by decide)⟩

/-- Claim C3: every Symbol-producing path — from a packed integer, from a
"precision,TICKER" string, from parts and from ABI bytes — routes
through the validating constructor, which fails with the precision error
exactly when the low byte exceeds 18, fails with the distinct charset
error exactly when the low byte is in range but the extracted name does
not match the pattern, and succeeds otherwise; in particular fromABI
rejects bytes with precision byte 19 and bytes carrying a lowercase
letter. -/
theorem symbol_validation_every_path (v p2 : Nat) (bytes cs2 s a b : List Nat)
    (pr : Int) (hsplit : splitOn 44 s = [a, b]) (hpr : parseIntJS a = some pr)
    (hpr0 : 0 ≤ pr) :
    Symbol.fromU64 v = mkSymbol v ∧
    Symbol.fromABI bytes = mkSymbol (uint64FromABI bytes) ∧
    Symbol.fromParts cs2 p2 = mkSymbol (toRawSymbol cs2 p2) ∧
    Symbol.fromString s = Symbol.fromParts b pr.toNat ∧
    (mkSymbol v = .error .symbolPrecision ↔ 18 < v % 256) ∧
    (mkSymbol v = .error .symbolCharset ↔
      v % 256 ≤ 18 ∧ symbolNamePattern (toSymbolName v) = false) ∧
    (mkSymbol v = .ok v ↔
      v % 256 ≤ 18 ∧ symbolNamePattern (toSymbolName v) = true) ∧
    Symbol.fromABI [19, 69, 79, 83, 0, 0, 0, 0] = .error .symbolPrecision ∧
    Symbol.fromABI [4, 101, 79, 83, 0, 0, 0, 0] = .error .symbolCharset := by
  refine ⟨rfl, rfl, rfl, ?_, mkSymbol_precision_iff v, mkSymbol_charset_iff v,
    mkSymbol_ok_iff v, rfl, rfl⟩
  rw [symFromString_reduce s a b hsplit, hpr]
  show (if pr < 0 then Except.error Err.badNumber else Symbol.fromParts b pr.toNat) =
    Symbol.fromParts b pr.toNat
  rw [if_neg (by omega)]

/-- Witness for the C3 theorem: the string "4,EOS" splits into "4" and
"EOS", whose precision field parses to 4. -/
theorem symbol_validation_every_path_witness :
    splitOn 44 [52, 44, 69, 79, 83] = [[52], [69, 79, 83]] ∧
    parseIntJS [52] = some 4 ∧ (0 : Int) ≤ 4 ∧
    (Symbol.fromU64 7 = mkSymbol 7 ∧
    Symbol.fromABI [1, 2] = mkSymbol (uint64FromABI [1, 2]) ∧
    Symbol.fromParts [69] 3 = mkSymbol (toRawSymbol [69] 3) ∧
    Symbol.fromString [52, 44, 69, 79, 83] = Symbol.fromParts [69, 79, 83] (4 : Int).toNat ∧
    (mkSymbol 7 = .error .symbolPrecision ↔ 18 < 7 % 256) ∧
    (mkSymbol 7 = .error .symbolCharset ↔
      7 % 256 ≤ 18 ∧ symbolNamePattern (toSymbolName 7) = false) ∧
    (mkSymbol 7 = .ok 7 ↔
      7 % 256 ≤ 18 ∧ symbolNamePattern (toSymbolName 7) = true) ∧
    Symbol.fromABI [19, 69, 79, 83, 0, 0, 0, 0] = .error .symbolPrecision ∧
    Symbol.fromABI [4, 101, 79, 83, 0, 0, 0, 0] = .error .symbolCharset) :=
  ⟨rfl, rfl, by norm_num,
    symbol_validation_every_path 7 3 [1, 2] [69] [52, 44, 69, 79, 83] [52]
      [69, 79, 83] 4 rfl rfl (by norm_num)⟩

/-- Claim C4: for every precision p ≤ 18 and ticker matching the pattern,
fromParts succeeds, its toString renders "p,ticker", Symbol.from parses
that string back to the same packed value, and the eight-byte ABI
encoding decodes back to the bit-identical packed value. -/
theorem symbol_roundtrip (cs : List Nat) (p : Nat)
    (hp : p ≤ 18) (hpat : symbolNamePattern cs = true) :
    Symbol.fromParts cs p = .ok (toRawSymbol cs p) ∧
    symToString (toRawSymbol cs p) = natToDigitChars p ++ 44 :: cs ∧
    Symbol.fromString (symToString (toRawSymbol cs p)) = .ok (toRawSymbol cs p) ∧
    Symbol.fromABI (Symbol.toABI (toRawSymbol cs p)) = .ok (toRawSymbol cs p) := by
  obtain ⟨hok, hprec, hname⟩ := fromParts_ok cs p hp hpat
  obtain ⟨hl1, hl7, hall⟩ := (symbolNamePattern_iff cs).mp hpat
  have hstr : symToString (toRawSymbol cs p) = natToDigitChars p ++ 44 :: cs := by
    rw [symToString, hprec, hname]
  refine ⟨hok, hstr, ?_, ?_⟩
  · have hd1 : ∀ c ∈ natToDigitChars p, isDigitChar c = true := by
      intro c hc
      have := mem_natToDigitChars p c hc
      simp only [isDigitChar, decide_eq_true_eq]
      omega
    have hnc : (44 : Nat) ∉ natToDigitChars p := by
      intro hc
      have := mem_natToDigitChars p 44 hc
      omega
    have hnc2 : (44 : Nat) ∉ cs := by
      intro hc
      have := hall 44 hc
      omega
    rw [hstr, symFromString_reduce _ _ _ (splitOn_pair 44 _ _ hnc hnc2),
      parseIntJS_digits _ (natToDigitChars_ne_nil p) hd1,
      digitsToNat_natToDigitChars p (by omega)]
    show (if (p : Int) < 0 then Except.error Err.badNumber
      else Symbol.fromParts cs ((p : Int)).toNat) = Except.ok (toRawSymbol cs p)
    rw [if_neg (by omega), Int.toNat_ofNat]
    exact hok
  · have hlt : toRawSymbol cs p < 2 ^ 64 :=
      toRawSymbol_lt cs p (by omega) fun c hc => by have := hall c hc; omega
    have habi : uint64FromABI (Symbol.toABI (toRawSymbol cs p)) = toRawSymbol cs p := by
      rw [Symbol.toABI, uint64ToABI, uint64FromABI,
        List.take_of_length_le (le_of_eq (leBytesPad_length 8 _)),
        leVal_leBytesPad]
      have h8 : (256 : Nat) ^ 8 = 2 ^ 64 := by norm_num
      rw [h8, Nat.mod_eq_of_lt hlt]
    rw [Symbol.fromABI, habi]
    exact hok

/-- Witness for the C4 theorem: the ticker "EOS" with precision 4. -/
theorem symbol_roundtrip_witness :
    (4 : Nat) ≤ 18 ∧ symbolNamePattern [69, 79, 83] = true ∧
    (Symbol.fromParts [69, 79, 83] 4 = .ok (toRawSymbol [69, 79, 83] 4) ∧
    symToString (toRawSymbol [69, 79, 83] 4) =
      natToDigitChars 4 ++ 44 :: [69, 79, 83] ∧
    Symbol.fromString (symToString (toRawSymbol [69, 79, 83] 4)) =
      .ok (toRawSymbol [69, 79, 83] 4) ∧
    Symbol.fromABI (Symbol.toABI (toRawSymbol [69, 79, 83] 4)) =
      .ok (toRawSymbol [69, 79, 83] 4)) :=
  ⟨by decide, by decide, symbol_roundtrip [69, 79, 83] 4 (by decide) (by decide)⟩

/-- Claim C6: Asset#toString detaches the sign, left-pads the magnitude's
decimal digits so at least precision + 1 digits remain, inserts the
decimal point precision digits from the right (no point at precision 0),
reattaches the sign and appends a space and the ticker name; units
-12500 at (EOS, 4) render as "-1.2500 EOS" and units 100 at (EOS, 0) as
"100 EOS". -/
theorem asset_render_spec (u : Int) (v : Nat) :
    Asset.toString ⟨u, v⟩ = assetToStringSpec u v ∧
    toSymbolPrecision v + 1 ≤
      (padZeros (toSymbolPrecision v) (natToDigitChars u.natAbs)).length ∧
    ((padZeros (toSymbolPrecision v) (natToDigitChars u.natAbs)).drop
        ((padZeros (toSymbolPrecision v) (natToDigitChars u.natAbs)).length -
          toSymbolPrecision v)).length = toSymbolPrecision v ∧
    Asset.toString ⟨-12500, toRawSymbol [69, 79, 83] 4⟩ =
      [45, 49, 46, 50, 53, 48, 48, 32, 69, 79, 83] ∧
    Asset.toString ⟨100, toRawSymbol [69, 79, 83] 0⟩ =
      [49, 48, 48, 32, 69, 79, 83] := by
  refine ⟨toString_eq_spec ⟨u, v⟩, padZeros_length_ge _ _, ?_, rfl, rfl⟩
  rw [List.length_drop]
  have := padZeros_length_ge (toSymbolPrecision v) (natToDigitChars u.natAbs)
  omega

lemma parse_numeric_body (mag : List Nat) (p : Nat)
    (hd : ∀ c ∈ mag, 48 ≤ c ∧ c ≤ 57) (hlen : p + 1 ≤ mag.length) :
    replaceFirst 46 (mag.take (mag.length - p) ++ 46 :: mag.drop (mag.length - p)) =
      mag ∧
    splitOn 46 (mag.take (mag.length - p) ++ 46 :: mag.drop (mag.length - p)) =
      [mag.take (mag.length - p), mag.drop (mag.length - p)] ∧
    (mag.drop (mag.length - p)).length = p := by
  have h46 : (46 : Nat) ∉ mag := fun hc => by have := hd 46 hc; omega
  have h46t : (46 : Nat) ∉ mag.take (mag.length - p) := fun hc =>
    h46 (List.mem_of_mem_take hc)
  have h46d : (46 : Nat) ∉ mag.drop (mag.length - p) := fun hc =>
    h46 (List.mem_of_mem_drop hc)
  refine ⟨?_, splitOn_pair 46 _ _ h46t h46d, ?_⟩
  · rw [replaceFirst_append 46 _ _ h46t, List.take_append_drop]
  · rw [List.length_drop]
    omega

lemma fromString_ok_of (s X nm : List Nat) (u : Int) (v : Nat)
    (hs : s = X ++ 32 :: nm)
    (h32X : (32 : Nat) ∉ X) (h32nm : (32 : Nat) ∉ nm)
    (hprec : (((splitOn 46 X).get? 1).getD []).length = toSymbolPrecision v)
    (hfp : Symbol.fromParts nm (toSymbolPrecision v) = .ok v)
    (hint : int64FromChars (replaceFirst 46 X) = some u) :
    Asset.fromString s = .ok ⟨u, v⟩ := by
  subst hs
  rw [fromString_reduce _ _ _ (splitOn_pair 32 _ _ h32X h32nm), hprec]
  simp only [hfp, hint]

/-- Claim C5: for every 64-bit units value and every valid symbol, the
rendered asset string parses back through Asset.from to the same units
and the same packed symbol value. -/
theorem asset_roundtrip (u : Int) (v : Nat)
    (hv : mkSymbol v = .ok v) (hv64 : v < 2 ^ 64)
    (hlo : -(2 ^ 63) ≤ u) (hhi : u < 2 ^ 63) :
    Asset.fromString (Asset.toString ⟨u, v⟩) = .ok ⟨u, v⟩ := by
  obtain ⟨hp18, hpat⟩ := (mkSymbol_ok_iff v).mp hv
  obtain ⟨hn1, hn7, hnall⟩ := (symbolNamePattern_iff (toSymbolName v)).mp hpat
  have hmlt : u.natAbs < 10 ^ 20 := by
    have h1 : u.natAbs ≤ 2 ^ 63 := by omega
    have h2 : (2 : Nat) ^ 63 < 10 ^ 20 := by norm_num
    omega
  have hmagd : ∀ c ∈ padZeros (toSymbolPrecision v) (natToDigitChars u.natAbs),
      48 ≤ c ∧ c ≤ 57 := fun c hc => mem_padZeros_digits _ _ c hc
  have hmagdig : ∀ c ∈ padZeros (toSymbolPrecision v) (natToDigitChars u.natAbs),
      isDigitChar c = true := by
    intro c hc
    have := hmagd c hc
    simp only [isDigitChar, decide_eq_true_eq]
    omega
  have hmaglen := padZeros_length_ge (toSymbolPrecision v) (natToDigitChars u.natAbs)
  have hmagne := padZeros_ne_nil (toSymbolPrecision v) (natToDigitChars u.natAbs)
  have hmagval : digitsToNat (padZeros (toSymbolPrecision v)
      (natToDigitChars u.natAbs)) = u.natAbs := by
    rw [digitsToNat_padZeros, digitsToNat_natToDigitChars _ hmlt]
  have h46mag : (46 : Nat) ∉ padZeros (toSymbolPrecision v) (natToDigitChars u.natAbs) :=
    fun hc => by have := hmagd 46 hc; omega
  have h32mag : (32 : Nat) ∉ padZeros (toSymbolPrecision v) (natToDigitChars u.natAbs) :=
    fun hc => by have := hmagd 32 hc; omega
  have hfp : Symbol.fromParts (toSymbolName v) (toSymbolPrecision v) = .ok v := by
    have h1 := (fromParts_ok (toSymbolName v) (toSymbolPrecision v) hp18 hpat).1
    rwa [valid_symbol_reconstruct v hv hv64] at h1
  have h32nm : (32 : Nat) ∉ toSymbolName v := fun hc => by have := hnall 32 hc; omega
  rw [toString_eq_spec ⟨u, v⟩]
  simp only [assetToStringSpec]
  by_cases hp0 : toSymbolPrecision v = 0
  · rw [if_pos hp0]
    by_cases hu : u < 0
    · rw [if_pos hu]
      refine fromString_ok_of _
        (45 :: padZeros (toSymbolPrecision v) (natToDigitChars u.natAbs))
        (toSymbolName v) u v (by simp [padZeros]) ?_ h32nm ?_ hfp ?_
      · intro hc
        rcases List.mem_cons.mp hc with h | h
        · omega
        · exact h32mag h
      · rw [splitOn_of_not_mem 46 _ (by
          intro hc
          rcases List.mem_cons.mp hc with h | h
          · omega
          · exact h46mag h)]
        simp [hp0]
      · rw [replaceFirst_of_not_mem 46 _ (by
          intro hc
          rcases List.mem_cons.mp hc with h | h
          · omega
          · exact h46mag h)]
        rw [int64FromChars_neg_digits _ hmagne hmagdig, hmagval]
        congr 1
        omega
    · rw [if_neg hu]
      refine fromString_ok_of _
        (padZeros (toSymbolPrecision v) (natToDigitChars u.natAbs))
        (toSymbolName v) u v (by simp [padZeros]) h32mag h32nm ?_ hfp ?_
      · rw [splitOn_of_not_mem 46 _ h46mag]
        simp [hp0]
      · rw [replaceFirst_of_not_mem 46 _ h46mag,
          int64FromChars_digits _ hmagne hmagdig, hmagval]
        congr 1
        omega
  · rw [if_neg hp0]
    obtain ⟨hrep, hsp46, hlenB⟩ :=
      parse_numeric_body (padZeros (toSymbolPrecision v) (natToDigitChars u.natAbs))
        (toSymbolPrecision v) hmagd hmaglen
    have h46A : (46 : Nat) ∉ (padZeros (toSymbolPrecision v)
        (natToDigitChars u.natAbs)).take
        ((padZeros (toSymbolPrecision v) (natToDigitChars u.natAbs)).length -
          toSymbolPrecision v) := fun hc => h46mag (List.mem_of_mem_take hc)
    have h46B : (46 : Nat) ∉ (padZeros (toSymbolPrecision v)
        (natToDigitChars u.natAbs)).drop
        ((padZeros (toSymbolPrecision v) (natToDigitChars u.natAbs)).length -
          toSymbolPrecision v) := fun hc => h46mag (List.mem_of_mem_drop hc)
    have h32body : (32 : Nat) ∉ (padZeros (toSymbolPrecision v)
        (natToDigitChars u.natAbs)).take
        ((padZeros (toSymbolPrecision v) (natToDigitChars u.natAbs)).length -
          toSymbolPrecision v) ++
        46 :: (padZeros (toSymbolPrecision v) (natToDigitChars u.natAbs)).drop
        ((padZeros (toSymbolPrecision v) (natToDigitChars u.natAbs)).length -
          toSymbolPrecision v) := by
      intro hc
      rcases List.mem_append.mp hc with h | h
      · exact h32mag (List.mem_of_mem_take h)
      · rcases List.mem_cons.mp h with h | h
        · omega
        · exact h32mag (List.mem_of_mem_drop h)
    by_cases hu : u < 0
    · rw [if_pos hu]
      refine fromString_ok_of _
        (45 :: ((padZeros (toSymbolPrecision v) (natToDigitChars u.natAbs)).take
          ((padZeros (toSymbolPrecision v) (natToDigitChars u.natAbs)).length -
            toSymbolPrecision v) ++
          46 :: (padZeros (toSymbolPrecision v) (natToDigitChars u.natAbs)).drop
          ((padZeros (toSymbolPrecision v) (natToDigitChars u.natAbs)).length -
            toSymbolPrecision v)))
        (toSymbolName v) u v (by simp [padZeros]) ?_ h32nm ?_ hfp ?_
      · intro hc
        rcases List.mem_cons.mp hc with h | h
        · omega
        · exact h32body h
      · rw [show (45 : Nat) :: ((padZeros (toSymbolPrecision v)
            (natToDigitChars u.natAbs)).take
            ((padZeros (toSymbolPrecision v) (natToDigitChars u.natAbs)).length -
              toSymbolPrecision v) ++
            46 :: (padZeros (toSymbolPrecision v) (natToDigitChars u.natAbs)).drop
            ((padZeros (toSymbolPrecision v) (natToDigitChars u.natAbs)).length -
              toSymbolPrecision v)) =
          (45 :: (padZeros (toSymbolPrecision v) (natToDigitChars u.natAbs)).take
            ((padZeros (toSymbolPrecision v) (natToDigitChars u.natAbs)).length -
              toSymbolPrecision v)) ++
            46 :: (padZeros (toSymbolPrecision v) (natToDigitChars u.natAbs)).drop
            ((padZeros (toSymbolPrecision v) (natToDigitChars u.natAbs)).length -
              toSymbolPrecision v) from rfl]
        rw [splitOn_pair 46 _ _ (by
          intro hc
          rcases List.mem_cons.mp hc with h | h
          · omega
          · exact h46A h) h46B]
        simpa using hlenB
      · rw [replaceFirst_cons_ne 46 45 _ (by omega), hrep,
          int64FromChars_neg_digits _ hmagne hmagdig, hmagval]
        congr 1
        omega
    · rw [if_neg hu]
      refine fromString_ok_of _
        ((padZeros (toSymbolPrecision v) (natToDigitChars u.natAbs)).take
          ((padZeros (toSymbolPrecision v) (natToDigitChars u.natAbs)).length -
            toSymbolPrecision v) ++
          46 :: (padZeros (toSymbolPrecision v) (natToDigitChars u.natAbs)).drop
          ((padZeros (toSymbolPrecision v) (natToDigitChars u.natAbs)).length -
            toSymbolPrecision v))
        (toSymbolName v) u v (by simp [padZeros]) h32body h32nm ?_ hfp ?_
      · rw [hsp46]
        simpa using hlenB
      · rw [hrep, int64FromChars_digits _ hmagne hmagdig, hmagval]
        congr 1
        omega

/-- Witness for the C5 theorem: units -12500 with the symbol (EOS, 4). -/
theorem asset_roundtrip_witness :
    mkSymbol (toRawSymbol [69, 79, 83] 4) = .ok (toRawSymbol [69, 79, 83] 4) ∧
    toRawSymbol [69, 79, 83] 4 < 2 ^ 64 ∧
    -(2 ^ 63) ≤ (-12500 : Int) ∧ (-12500 : Int) < 2 ^ 63 ∧
    Asset.fromString (Asset.toString ⟨-12500, toRawSymbol [69, 79, 83] 4⟩) =
      .ok ⟨-12500, toRawSymbol [69, 79, 83] 4⟩ :=
  ⟨rfl, by decide, by norm_num, by norm_num,
    asset_roundtrip (-12500) (toRawSymbol [69, 79, 83] 4) rfl (by decide)
      (by norm_num) (by norm_num)⟩

/-- Claim C7: Asset.from fails whenever the string does not split into
exactly two space-separated parts; on a well-formed amount (optional
sign, integer digits, optional dot and fraction digits) followed by a
space and a valid ticker, the inferred precision is the number of digits
after the dot (0 with no dot), and the units are the amount's digits
with the dot stripped and the sign preserved; "1.50 EOS" parses to
precision 2 and units 150. -/
theorem asset_from_parse (ip fp t s2 : List Nat) (neg hasDot : Bool)
    (hip1 : ip ≠ []) (hip2 : ∀ c ∈ ip, isDigitChar c = true)
    (hfp2 : ∀ c ∈ fp, isDigitChar c = true)
    (hdot : hasDot = false → fp = [])
    (ht : symbolNamePattern t = true)
    (hp : fp.length ≤ 18)
    (h2 : (splitOn 32 s2).length ≠ 2) :
    Asset.fromString (((if neg then [45] else []) ++ ip ++
        (if hasDot then 46 :: fp else [])) ++ 32 :: t) =
      .ok ⟨if neg then -(digitsToNat (ip ++ fp) : Int)
        else (digitsToNat (ip ++ fp) : Int), toRawSymbol t fp.length⟩ ∧
    toSymbolPrecision (toRawSymbol t fp.length) = fp.length ∧
    Asset.fromString [49, 46, 53, 48, 32, 69, 79, 83] =
      .ok ⟨150, toRawSymbol [69, 79, 83] 2⟩ ∧
    Asset.fromString s2 = .error .invalidAssetString := by
  obtain ⟨hfpok, hfprec, hfpname⟩ := fromParts_ok t fp.length hp ht
  obtain ⟨ht1, ht7, htall⟩ := (symbolNamePattern_iff t).mp ht
  have h32t : (32 : Nat) ∉ t := fun hc => by have := htall 32 hc; omega
  have hiprange : ∀ c ∈ ip, 48 ≤ c ∧ c ≤ 57 := fun c hc => by
    have := hip2 c hc
    simpa [isDigitChar] using this
  have hfprange : ∀ c ∈ fp, 48 ≤ c ∧ c ≤ 57 := fun c hc => by
    have := hfp2 c hc
    simpa [isDigitChar] using this
  have h46ip : (46 : Nat) ∉ ip := fun hc => by have := hiprange 46 hc; omega
  have h32ip : (32 : Nat) ∉ ip := fun hc => by have := hiprange 32 hc; omega
  have h46fp : (46 : Nat) ∉ fp := fun hc => by have := hfprange 46 hc; omega
  have h32fp : (32 : Nat) ∉ fp := fun hc => by have := hfprange 32 hc; omega
  have hipfpne : ip ++ fp ≠ [] := by simp [hip1]
  have hipfpd : ∀ c ∈ ip ++ fp, isDigitChar c = true := by
    intro c hc
    rcases List.mem_append.mp hc with h | h
    · exact hip2 c h
    · exact hfp2 c h
  refine ⟨?_, hfprec, rfl, fromString_not_two s2 h2⟩
  cases neg with
  | false =>
    cases hasDot with
    | false =>
      have hfp0 : fp = [] := hdot rfl
      subst hfp0
      simp only [List.length_nil] at hfpok hfprec
      simp only [List.append_nil, List.length_nil, Bool.false_eq_true, if_false,
        List.nil_append]
      refine fromString_ok_of _ ip t _ _ rfl h32ip h32t ?_ ?_ ?_
      · rw [splitOn_of_not_mem 46 ip h46ip, hfprec]
        rfl
      · rw [hfprec]
        exact hfpok
      · rw [replaceFirst_of_not_mem 46 ip h46ip]
        exact int64FromChars_digits ip hip1 hip2
    | true =>
      simp only [Bool.false_eq_true, if_false, if_true, List.nil_append]
      refine fromString_ok_of _ (ip ++ 46 :: fp) t _ _ rfl ?_ h32t ?_ ?_ ?_
      · intro hc
        rcases List.mem_append.mp hc with h | h
        · exact h32ip h
        · rcases List.mem_cons.mp h with h | h
          · omega
          · exact h32fp h
      · rw [splitOn_pair 46 ip fp h46ip h46fp, hfprec]
        rfl
      · rw [hfprec]
        exact hfpok
      · rw [replaceFirst_append 46 ip fp h46ip]
        exact int64FromChars_digits _ hipfpne hipfpd
  | true =>
    cases hasDot with
    | false =>
      have hfp0 : fp = [] := hdot rfl
      subst hfp0
      simp only [List.length_nil] at hfpok hfprec
      simp only [List.append_nil, List.length_nil, Bool.false_eq_true, if_false,
        if_true, List.cons_append, List.nil_append]
      refine fromString_ok_of _ (45 :: ip) t _ _ rfl ?_ h32t ?_ ?_ ?_
      · intro hc
        rcases List.mem_cons.mp hc with h | h
        · omega
        · exact h32ip h
      · rw [splitOn_of_not_mem 46 (45 :: ip) (by
          intro hc
          rcases List.mem_cons.mp hc with h | h
          · omega
          · exact h46ip h), hfprec]
        rfl
      · rw [hfprec]
        exact hfpok
      · rw [replaceFirst_cons_ne 46 45 ip (by omega),
          replaceFirst_of_not_mem 46 ip h46ip]
        exact int64FromChars_neg_digits ip hip1 hip2
    | true =>
      simp only [if_true, List.cons_append, List.nil_append]
      refine fromString_ok_of _ (45 :: (ip ++ 46 :: fp)) t _ _ rfl ?_ h32t ?_ ?_ ?_
      · intro hc
        rcases List.mem_cons.mp hc with h | h
        · omega
        · rcases List.mem_append.mp h with h | h
          · exact h32ip h
          · rcases List.mem_cons.mp h with h | h
            · omega
            · exact h32fp h
      · rw [show (45 : Nat) :: (ip ++ 46 :: fp) = (45 :: ip) ++ 46 :: fp from rfl,
          splitOn_pair 46 (45 :: ip) fp (by
            intro hc
            rcases List.mem_cons.mp hc with h | h
            · omega
            · exact h46ip h) h46fp, hfprec]
        rfl
      · rw [hfprec]
        exact hfpok
      · rw [replaceFirst_cons_ne 46 45 _ (by omega), replaceFirst_append 46 ip fp h46ip]
        exact int64FromChars_neg_digits _ hipfpne hipfpd

/-- Witness for the C7 theorem: the string "-1.50 EOS" (sign, integer
part "1", fraction "50", ticker "EOS"), and the one-part string "1". -/
theorem asset_from_parse_witness :
    ([49] : List Nat) ≠ [] ∧ (∀ c ∈ [49], isDigitChar c = true) ∧
    (∀ c ∈ [53, 48], isDigitChar c = true) ∧
    ((true : Bool) = false → ([53, 48] : List Nat) = []) ∧
    symbolNamePattern [69, 79, 83] = true ∧
    ([53, 48] : List Nat).length ≤ 18 ∧
    (splitOn 32 [49]).length ≠ 2 ∧
    (Asset.fromString (((if (true : Bool) then [45] else []) ++ [49] ++
        (if (true : Bool) then 46 :: [53, 48] else [])) ++ 32 :: [69, 79, 83]) =
      .ok ⟨if (true : Bool) then -(digitsToNat ([49] ++ [53, 48]) : Int)
        else (digitsToNat ([49] ++ [53, 48]) : Int),
        toRawSymbol [69, 79, 83] ([53, 48] : List Nat).length⟩ ∧
    toSymbolPrecision (toRawSymbol [69, 79, 83] ([53, 48] : List Nat).length) =
      ([53, 48] : List Nat).length ∧
    Asset.fromString [49, 46, 53, 48, 32, 69, 79, 83] =
      .ok ⟨150, toRawSymbol [69, 79, 83] 2⟩ ∧
    Asset.fromString [49] = .error .invalidAssetString) :=
  ⟨by decide, by decide, by decide, by decide, by decide, by decide, by decide,
    asset_from_parse [49] [53, 48] [69, 79, 83] [49] true true (by decide)
      (by decide) (by decide) (by decide) (by decide) (by decide) (by decide)⟩

end Antelope
